import Mathlib

/-!
Verification of the ESG 10-K extraction script (`scripts/esg_10k_extraction.py`).

The script's text-processing core (`extract_esg_sections`) searches the
whitespace-normalized filing text with the Python regex
`[^.]*\bKW\b[^.]*\.` under `re.IGNORECASE` via `re.findall`.  Since the
character class `[^.]*` cannot cross a period and every keyword of the
catalog is period-free, the non-overlapping leftmost matches of that
pattern are exactly the period-terminated segments of the text (the
maximal period-free runs followed by their closing period) that contain
the keyword as a case-insensitive whole word; the match text is the whole
segment together with its closing period.  The embedding below defines
that denotation directly on `List Char`.  Word characters are modelled as
the ASCII word characters `[A-Za-z0-9_]` of the regex `\b` class
(the catalog keywords and the counterexample inputs are ASCII).
-/

/-- ASCII word characters, the `\w` class used by the `\b` boundaries of
the search pattern. -/
def isWordChar (c : Char) : Bool :=
  c.isAlphanum || c == '_'

/-- The whitespace characters of Python's `\s` / `str.strip` (ASCII part). -/
def isWs (c : Char) : Bool :=
  c == ' ' || c == '\t' || c == '\n' || c == '\r' || c == '\x0b' || c == '\x0c'

/-- Case-insensitive "starts with": the keyword matched under
`re.IGNORECASE`, character by character via `Char.toLower`. -/
def startsWithCI : List Char → List Char → Bool
  | [], _ => true
  | _ :: _, [] => false
  | k :: ks, t :: ts => (k.toLower == t.toLower) && startsWithCI ks ts

/-- Whether position `i` of `text` holds a word character (out of range
counts as a non-word position, as at the ends of a Python string). -/
def isWordAt (text : List Char) (i : Nat) : Bool :=
  match text.get? i with
  | some c => isWordChar c
  | none => false

/-- Whether the position just before index `i` holds a word character. -/
def wordAtBefore (text : List Char) (i : Nat) : Bool :=
  match i with
  | 0 => false
  | j + 1 => isWordAt text j

/-- Python's `\b`: a boundary sits at index `i` when exactly one of the
two surrounding positions holds a word character. -/
def boundaryAt (text : List Char) (i : Nat) : Bool :=
  wordAtBefore text i != isWordAt text i

/-- `\bkw\b` matches in `text` at position `q` (case-insensitive). -/
def wholeWordAt (kw text : List Char) (q : Nat) : Bool :=
  startsWithCI kw (text.drop q) && boundaryAt text q && boundaryAt text (q + kw.length)

/-- `text` contains `kw` as a case-insensitive whole word somewhere. -/
def containsWholeWord (kw text : List Char) : Bool :=
  (List.range (text.length + 1)).any (wholeWordAt kw text)

/-- Split a text at its periods: `n` periods yield `n + 1` period-free
segments (the periods themselves are dropped). -/
def splitOnPeriod : List Char → List (List Char)
  | [] => [[]]
  | c :: rest =>
    if c = '.' then [] :: splitOnPeriod rest
    else
      match splitOnPeriod rest with
      | [] => [[c]]
      | s :: ss => (c :: s) :: ss

/-- Denotation of `re.findall(r'[^.]*\b' + re.escape(keyword) + r'\b[^.]*\.',
text, re.IGNORECASE)` for a period-free keyword: every period-terminated
segment containing the keyword as a case-insensitive whole word, returned
with its closing period.  The trailing segment after the last period has
no closing period and never yields a match. -/
def findall (kw text : List Char) : List (List Char) :=
  (splitOnPeriod text).dropLast.filterMap (fun seg =>
    let cand := seg ++ ['.']
    if containsWholeWord kw cand then some cand else none)

/-- Python `str.strip` from the right. -/
def trimRight (l : List Char) : List Char :=
  (l.reverse.dropWhile isWs).reverse

/-- Python `str.strip`: drop whitespace from both ends. -/
def trimWs (l : List Char) : List Char :=
  trimRight (l.dropWhile isWs)

/-- The body of the per-match loop of `extract_esg_sections`: strip the
match, keep it when `50 < len < 500` and it is not already present in the
category's list. -/
def addSpan (acc : List (List Char)) (m : List Char) : List (List Char) :=
  let cleaned := trimWs m
  if 50 < cleaned.length ∧ cleaned.length < 500 then
    if cleaned ∈ acc then acc else acc ++ [cleaned]
  else acc

/-- Processing of one keyword: `for match in matches[:3]: ...`. -/
def processKeyword (kw text : List Char) (acc : List (List Char)) : List (List Char) :=
  ((findall kw text).take 3).foldl addSpan acc

/-- One category's span list: fold the category's keywords, in order,
over the category's (initially empty) result list. -/
def extractCategory (kws : List (List Char)) (text : List Char) : List (List Char) :=
  kws.foldl (fun acc kw => processKeyword kw text acc) []

/-- The whole keyword loop of `extract_esg_sections`: each category's
list is built independently from that category's keywords. -/
def extractAll (catalog : List (String × List String)) (text : List Char) :
    List (String × List (List Char)) :=
  catalog.map (fun p => (p.1, extractCategory (p.2.map String.toList) text))

/-- `re.sub(r'\s+', ' ', text)`: collapse every maximal whitespace run to
a single space.  The flag records whether the previous character was part
of a whitespace run. -/
def normWsAux : Bool → List Char → List Char
  | _, [] => []
  | prevWs, c :: rest =>
    if isWs c then
      if prevWs then normWsAux true rest
      else ' ' :: normWsAux true rest
    else c :: normWsAux false rest

/-- Whitespace normalization applied by `extract_esg_sections` before the
keyword scan. -/
def normalizeWs (l : List Char) : List Char :=
  normWsAux false l

/-- The `ESG_KEYWORDS` constant of the script. -/
def ESG_KEYWORDS : List (String × List String) :=
  [("Environmental",
    ["climate change", "carbon emissions", "greenhouse gas", "renewable energy",
     "environmental impact", "sustainability", "carbon footprint", "net zero",
     "clean energy", "environmental matters", "climate risk", "emissions reduction"]),
   ("Social",
    ["human capital", "employee", "workforce", "diversity", "inclusion",
     "health and safety", "labor practices", "community", "human rights",
     "employee benefits", "talent", "workplace"]),
   ("Governance",
    ["board of directors", "corporate governance", "ethics", "compliance",
     "risk management", "audit committee", "executive compensation",
     "shareholder rights", "anti-corruption", "code of conduct"])]

/-- `extract_esg_sections` on the text content of a filing: normalize
whitespace, then run the keyword scan over the fixed catalog.  (The
HTML-to-text conversion done by the external BeautifulSoup library is the
input boundary of the model.) -/
def extract_esg_sections (text : List Char) : List (String × List (List Char)) :=
  extractAll ESG_KEYWORDS (normalizeWs text)

/-- Per-category metrics, the value stored by `analyze_esg_disclosure`
for one category.  The Python float average is modelled by exact rational
division. -/
structure CategoryMetrics where
  disclosure_count : Nat
  avg_length : ℚ
  sample : List Char
  deriving Repr, DecidableEq

/-- The per-category body of `analyze_esg_disclosure`:
`count`, `sum(len(s) for s in items) / len(items) if items else 0`, and
`items[0][:200] + '...' if items else 'No disclosure found'`. -/
def analyze_category (items : List (List Char)) : CategoryMetrics :=
  { disclosure_count := items.length
    avg_length :=
      if items = [] then 0
      else ((items.map List.length).sum : ℚ) / (items.length : ℚ)
    sample :=
      match items with
      | [] => "No disclosure found".toList
      | s :: _ => s.take 200 ++ "...".toList }

/-- `analyze_esg_disclosure`: one `CategoryMetrics` per fixed category,
reading that category's list from the extraction result (`.get(category, [])`
modelled by `lookup` with default `[]`). -/
def analyze_esg_disclosure (esg_data : List (String × List (List Char))) :
    List (String × CategoryMetrics) :=
  ["Environmental", "Social", "Governance"].map fun c =>
    (c, analyze_category ((esg_data.lookup c).getD []))

/-- A filing record as built by `get_company_filings`. -/
structure Filing where
  form : String
  accession : String
  date : String
  document : String
  cik : String
  deriving Repr, DecidableEq

/-- Python `str.replace('-', '')` on the accession number. -/
def stripDashes (s : String) : String :=
  ⟨s.data.filter (fun c => c != '-')⟩

/-- The `filings.get('filings', {}).get('recent', {})` object: four
parallel sequences, each possibly missing (`.get(key, [])` yields `[]`
for a missing key, modelled by `Option.getD []`). -/
structure RecentFilings where
  form : Option (List String)
  accessionNumber : Option (List String)
  filingDate : Option (List String)
  primaryDocument : Option (List String)
  deriving Repr

/-- The `for i, form in enumerate(forms)` loop of `get_company_filings`.
`accessions[i]`, `dates[i]` and `docs[i]` raise `IndexError` when `i` is
out of range; the raised exception is modelled by `none`. -/
def filingsLoop (cik ft : String) (count : Nat) (accs dates docs : List String) :
    List String → Nat → List Filing → Option (List Filing)
  | [], _, results => some results
  | form :: rest, i, results =>
    if form = ft ∧ results.length < count then
      match accs.get? i, dates.get? i, docs.get? i with
      | some a, some dt, some doc =>
        filingsLoop cik ft count accs dates docs rest (i + 1)
          (results ++ [{ form := form, accession := stripDashes a, date := dt,
                         document := doc, cik := cik }])
      | _, _, _ => none
    else
      filingsLoop cik ft count accs dates docs rest (i + 1) results

/-- `get_company_filings` on an already-parsed metadata object (the HTTP
layer is the model's input boundary; a non-success status makes the
Python function return `[]` before this loop is reached).  `none` models
an uncaught `IndexError` escaping the function. -/
def get_company_filings (cik ft : String) (count : Nat) (recent : RecentFilings) :
    Option (List Filing) :=
  filingsLoop cik ft count
    (recent.accessionNumber.getD []) (recent.filingDate.getD [])
    (recent.primaryDocument.getD [])
    (recent.form.getD []) 0 []

/-- Result record accumulated by `main` for one company
(`all_results[company]`). -/
structure CompanyResult where
  filing_date : String
  esg_data : List (String × List (List Char))
  metrics : List (String × CategoryMetrics)
  deriving DecidableEq

/-- The per-entity loop of `main`, with the two network calls abstracted
as oracles.  `Except.error ()` models an uncaught transport-level
exception (e.g. a `requests` timeout) raised inside the call: `main` has
no `try`/`except`, so in the Except monad an error aborts the whole fold,
exactly as the Python exception would propagate out of `main`.
An oracle value `.ok none` models the `None` return on a non-success HTTP
status, `.ok (some [])` the empty-string document; Python's
`if not content:` treats both as a skip.  The returned list is the
`all_results` mapping that `main` serializes to the JSON artifact after
the loop (insertion order preserved). -/
def processEntities (companies : List (String × String))
    (listF : String → Except Unit (List Filing))
    (fetchC : String → Filing → Except Unit (Option (List Char))) :
    Except Unit (List (String × CompanyResult)) :=
  companies.foldlM (fun acc comp => do
    let filings ← listF comp.2
    match filings with
    | [] => pure acc
    | filing :: _ => do
      let content? ← fetchC comp.2 filing
      match content? with
      | none => pure acc
      | some content =>
        if content = [] then pure acc
        else
          let esg := extract_esg_sections content
          let metrics := analyze_esg_disclosure esg
          pure (acc ++ [(comp.1, { filing_date := filing.date, esg_data := esg,
                                   metrics := metrics })])) []

/-- The `COMPANIES` constant of the script. -/
def COMPANIES : List (String × String) :=
  [("Apple", "0000320193"), ("Alphabet (Google)", "0001652044"), ("Tesla", "0001318605")]

/-! ### Concrete inputs used by the witnesses and counterexamples -/

/-- A keyword of the Environmental category, used as a concrete input. -/
def sampleKw : List Char := "climate change".toList

/-- A small normalized text with one long keyword-bearing sentence. -/
def sampleText : List Char :=
  "Our climate change policy is strong and covers many areas of the business. End.".toList

/-- The single span the extractor produces from `sampleText` for `sampleKw`. -/
def sampleSpan : List Char :=
  "Our climate change policy is strong and covers many areas of the business.".toList

/-- A one-category catalog for concrete evaluations. -/
def smallCatalog : List (String × List String) := [("Environmental", ["climate change"])]

/-- Metadata whose parallel sequences are aligned (two entries each). -/
def goodRecent : RecentFilings :=
  { form := some ["8-K", "10-K"]
    accessionNumber := some ["0000320193-24-000001", "0000320193-24-000002"]
    filingDate := some ["2024-01-01", "2024-02-01"]
    primaryDocument := some ["a.htm", "b.htm"] }

/-- Metadata with a matching form type but empty parallel sequences:
`accessions[0]` raises `IndexError` in the Python loop. -/
def mismatchedRecent : RecentFilings :=
  { form := some ["10-K"]
    accessionNumber := some []
    filingDate := some []
    primaryDocument := some [] }

/-- A concrete filing record for the driver scenarios. -/
def filingA : Filing :=
  { form := "10-K", accession := "000032019324000001", date := "2024-01-01"
    document := "a.htm", cik := "0000320193" }

/-- Listing oracle: every entity has one 10-K filing. -/
def exnListings : String → Except Unit (List Filing) :=
  fun _ => Except.ok [filingA]

/-- Fetch oracle: the fetch for CIK 0000320193 raises a transport
exception; any other fetch succeeds. -/
def exnFetch : String → Filing → Except Unit (Option (List Char)) :=
  fun cik _ => if cik = "0000320193" then Except.error () else Except.ok (some sampleText)

example :
    extractCategory ["climate change".toList]
      "Our climate change policy is strong and covers many areas of the business. End.".toList
    = ["Our climate change policy is strong and covers many areas of the business.".toList] := by
  decide

/-! ### Structural lemmas about the period splitter -/

theorem splitOnPeriod_ne_nil (t : List Char) : splitOnPeriod t ≠ [] := by
  induction t with
  | nil => simp [splitOnPeriod]
  | cons c rest ih =>
    simp only [splitOnPeriod]
    split
    · simp
    · cases h : splitOnPeriod rest with
      | nil => simp
      | cons s ss => simp

theorem no_period_of_mem_splitOnPeriod :
    ∀ {t seg : List Char}, seg ∈ splitOnPeriod t → '.' ∉ seg := by
  intro t
  induction t with
  | nil =>
    intro seg h
    simp [splitOnPeriod] at h
    subst h
    simp
  | cons c rest ih =>
    intro seg h
    simp only [splitOnPeriod] at h
    by_cases hc : c = '.'
    · rw [if_pos hc] at h
      rcases List.mem_cons.mp h with h1 | h1
      · subst h1; simp
      · exact ih h1
    · rw [if_neg hc] at h
      cases hsp : splitOnPeriod rest with
      | nil => exact absurd hsp (splitOnPeriod_ne_nil rest)
      | cons s ss =>
        rw [hsp] at h
        rcases List.mem_cons.mp h with h1 | h1
        · subst h1
          intro hmem
          rcases List.mem_cons.mp hmem with h2 | h2
          · exact hc h2.symm
          · exact ih (hsp ▸ List.mem_cons_self s ss) h2
        · exact ih (hsp ▸ List.mem_cons_of_mem s h1)

theorem findall_struct {kw text m : List Char} (h : m ∈ findall kw text) :
    ∃ seg, '.' ∉ seg ∧ m = seg ++ ['.'] ∧ containsWholeWord kw m = true := by
  unfold findall at h
  rcases List.mem_filterMap.mp h with ⟨seg, hseg, hf⟩
  by_cases hc : containsWholeWord kw (seg ++ ['.']) = true
  · simp only [hc, if_true] at hf
    have hm : m = seg ++ ['.'] := (Option.some.inj hf).symm
    subst hm
    exact ⟨seg,
      no_period_of_mem_splitOnPeriod ((List.dropLast_sublist (splitOnPeriod text)).subset hseg),
      rfl, hc⟩
  · simp only [hc, if_false] at hf
    exact absurd hf (by simp [hc])

/-! ### Lemmas about stripping whitespace -/

theorem getLast?_dropWhile {p : Char → Bool} {c : Char} :
    ∀ {l : List Char}, l.getLast? = some c → p c = false →
      (l.dropWhile p).getLast? = some c := by
  intro l
  induction l with
  | nil => intro h _; simp at h
  | cons a t ih =>
    intro h hp
    cases t with
    | nil =>
      simp at h
      subst h
      simp [List.dropWhile_cons, hp]
    | cons b t2 =>
      rw [List.getLast?_cons_cons] at h
      rw [List.dropWhile_cons]
      by_cases hpa : p a = true
      · rw [if_pos hpa]
        exact ih h hp
      · rw [if_neg hpa, List.getLast?_cons_cons]
        exact h

theorem trimRight_eq_self {l : List Char} {c : Char}
    (h : l.getLast? = some c) (hc : isWs c = false) : trimRight l = l := by
  unfold trimRight
  have hrev : l.reverse.head? = some c := by rw [List.head?_reverse, h]
  cases hl : l.reverse with
  | nil => rw [hl] at hrev; simp at hrev
  | cons a t =>
    rw [hl] at hrev
    simp at hrev
    subst hrev
    have hdw : List.dropWhile isWs (a :: t) = a :: t := by
      rw [List.dropWhile_cons, if_neg]
      simp [hc]
    rw [hdw, ← hl, List.reverse_reverse]

theorem trimWs_of_getLast_period {m : List Char} (h : m.getLast? = some '.') :
    trimWs m = m.dropWhile isWs := by
  unfold trimWs
  exact trimRight_eq_self (getLast?_dropWhile h (by decide)) (by decide)

theorem dropWhile_idem (p : Char → Bool) (l : List Char) :
    (l.dropWhile p).dropWhile p = l.dropWhile p := by
  induction l with
  | nil => rfl
  | cons a t ih =>
    rw [List.dropWhile_cons]
    by_cases hpa : p a = true
    · rw [if_pos hpa]; exact ih
    · rw [if_neg hpa, List.dropWhile_cons, if_neg hpa]

theorem dropWhile_append_singleton {p : Char → Bool} {c : Char} (hc : p c = false)
    (xs : List Char) : (xs ++ [c]).dropWhile p = xs.dropWhile p ++ [c] := by
  induction xs with
  | nil => simp [List.dropWhile_cons, hc]
  | cons a t ih =>
    rw [List.cons_append, List.dropWhile_cons, List.dropWhile_cons]
    by_cases hpa : p a = true
    · rw [if_pos hpa, if_pos hpa]; exact ih
    · rw [if_neg hpa, if_neg hpa, List.cons_append]

/-! ### A whole-word match survives stripping a non-word prefix -/

theorem isWordAt_append_right (pre rest : List Char) (i : Nat) :
    isWordAt (pre ++ rest) (pre.length + i) = isWordAt rest i := by
  unfold isWordAt
  rw [List.get?_append_right (Nat.le_add_right _ _), Nat.add_sub_cancel_left]

theorem isWordAt_pre {pre rest : List Char}
    (hpre : ∀ c ∈ pre, isWordChar c = false) {i : Nat} (hi : i < pre.length) :
    isWordAt (pre ++ rest) i = false := by
  unfold isWordAt
  rw [List.get?_append hi]
  cases hg : pre.get? i with
  | none => rfl
  | some c =>
    exact hpre c (List.get?_mem hg)

theorem boundaryAt_append_shift {pre rest : List Char}
    (hpre : ∀ c ∈ pre, isWordChar c = false) (k : Nat) :
    boundaryAt (pre ++ rest) (pre.length + k) = boundaryAt rest k := by
  unfold boundaryAt
  have h1 : isWordAt (pre ++ rest) (pre.length + k) = isWordAt rest k :=
    isWordAt_append_right pre rest k
  have h2 : wordAtBefore (pre ++ rest) (pre.length + k) = wordAtBefore rest k := by
    cases k with
    | zero =>
      cases hd : pre.length with
      | zero =>
        have hnil : pre = [] := List.length_eq_zero.mp hd
        subst hnil
        rfl
      | succ j =>
        rw [Nat.add_zero]
        show isWordAt (pre ++ rest) j = wordAtBefore rest 0
        rw [isWordAt_pre hpre (by omega)]
        rfl
    | succ k2 =>
      rw [Nat.add_succ]
      show isWordAt (pre ++ rest) (pre.length + k2) = isWordAt rest k2
      exact isWordAt_append_right pre rest k2
  rw [h1, h2]

theorem drop_append_shift (pre rest : List Char) (k : Nat) :
    (pre ++ rest).drop (pre.length + k) = rest.drop k := by
  induction pre with
  | nil => simp
  | cons a t ih =>
    rw [List.cons_append, List.length_cons]
    rw [show t.length + 1 + k = (t.length + k) + 1 from by omega]
    rw [List.drop_succ_cons]
    exact ih

theorem wholeWordAt_not_in_pre {pre rest kw : List Char}
    (hpre : ∀ c ∈ pre, isWordChar c = false) {q : Nat} (hq : q < pre.length) :
    wholeWordAt kw (pre ++ rest) q = false := by
  unfold wholeWordAt
  have hb : boundaryAt (pre ++ rest) q = false := by
    unfold boundaryAt
    have h1 : isWordAt (pre ++ rest) q = false := isWordAt_pre hpre hq
    have h2 : wordAtBefore (pre ++ rest) q = false := by
      cases q with
      | zero => rfl
      | succ j =>
        show isWordAt (pre ++ rest) j = false
        exact isWordAt_pre hpre (by omega)
    rw [h1, h2]
    rfl
  rw [hb]
  simp

theorem containsWholeWord_append_of_pre {pre rest kw : List Char}
    (hpre : ∀ c ∈ pre, isWordChar c = false)
    (h : containsWholeWord kw (pre ++ rest) = true) :
    containsWholeWord kw rest = true := by
  unfold containsWholeWord at h ⊢
  rcases List.any_eq_true.mp h with ⟨q, hq, hw⟩
  have hqr : q < (pre ++ rest).length + 1 := List.mem_range.mp hq
  by_cases hlt : q < pre.length
  · rw [wholeWordAt_not_in_pre hpre hlt] at hw
    exact absurd hw (by simp)
  · push_neg at hlt
    obtain ⟨k, rfl⟩ : ∃ k, q = pre.length + k := ⟨q - pre.length, by omega⟩
    refine List.any_eq_true.mpr ⟨k, List.mem_range.mpr ?_, ?_⟩
    · rw [List.length_append] at hqr
      omega
    · unfold wholeWordAt at hw ⊢
      simp only [Bool.and_eq_true] at hw
      obtain ⟨⟨hw1, hw2⟩, hw3⟩ := hw
      rw [drop_append_shift] at hw1
      rw [boundaryAt_append_shift hpre] at hw2
      rw [Nat.add_assoc, boundaryAt_append_shift hpre] at hw3
      rw [hw1, hw2, hw3]
      rfl

theorem isWs_not_word {c : Char} (h : isWs c = true) : isWordChar c = false := by
  simp only [isWs, Bool.or_eq_true, beq_iff_eq] at h
  rcases h with ((((rfl | rfl) | rfl) | rfl) | rfl) | rfl <;> decide

theorem containsWholeWord_trimWs {kw m : List Char}
    (hlast : m.getLast? = some '.')
    (h : containsWholeWord kw m = true) :
    containsWholeWord kw (trimWs m) = true := by
  rw [trimWs_of_getLast_period hlast]
  have hpre : ∀ c ∈ m.takeWhile isWs, isWordChar c = false := fun c hc =>
    isWs_not_word (List.mem_takeWhile_imp hc)
  refine containsWholeWord_append_of_pre hpre ?_
  rw [List.takeWhile_append_dropWhile]
  exact h

theorem trimWs_trimWs_of_last_period {m : List Char} (hlast : m.getLast? = some '.') :
    trimWs (trimWs m) = trimWs m := by
  have h1 : trimWs m = m.dropWhile isWs := trimWs_of_getLast_period hlast
  have h2 : (trimWs m).getLast? = some '.' := by
    rw [h1]; exact getLast?_dropWhile hlast (by decide)
  rw [trimWs_of_getLast_period h2, h1, dropWhile_idem]

example :
    extractCategory ["board".toList] "The boardwalk is long enough to be a span yet never matches inside a longer word.".toList
    = [] := by
  decide

/-! ### Membership characterization of the extraction folds -/

theorem mem_foldl_addSpan {ms : List (List Char)} :
    ∀ {acc : List (List Char)} {s : List Char}, s ∈ ms.foldl addSpan acc →
      s ∈ acc ∨ ∃ m ∈ ms, s = trimWs m ∧ 50 < s.length ∧ s.length < 500 := by
  induction ms with
  | nil => intro acc s h; exact Or.inl h
  | cons m ms ih =>
    intro acc s h
    rw [List.foldl_cons] at h
    rcases ih h with h1 | ⟨m2, hm2, he⟩
    · simp only [addSpan] at h1
      by_cases hlen : 50 < (trimWs m).length ∧ (trimWs m).length < 500
      · rw [if_pos hlen] at h1
        by_cases hmem : trimWs m ∈ acc
        · rw [if_pos hmem] at h1
          exact Or.inl h1
        · rw [if_neg hmem] at h1
          rcases List.mem_append.mp h1 with h2 | h2
          · exact Or.inl h2
          · have hs : s = trimWs m := by simpa using h2
            subst hs
            exact Or.inr ⟨m, List.mem_cons_self _ _, rfl, hlen.1, hlen.2⟩
      · rw [if_neg hlen] at h1
        exact Or.inl h1
    · exact Or.inr ⟨m2, List.mem_cons_of_mem _ hm2, he⟩

theorem mem_extractCategory_fold {text : List Char} {kws : List (List Char)} :
    ∀ {acc : List (List Char)} {s : List Char},
      s ∈ kws.foldl (fun acc kw => processKeyword kw text acc) acc →
      s ∈ acc ∨ ∃ kw ∈ kws, ∃ m ∈ (findall kw text).take 3,
        s = trimWs m ∧ 50 < s.length ∧ s.length < 500 := by
  induction kws with
  | nil => intro acc s h; exact Or.inl h
  | cons kw kws ih =>
    intro acc s h
    rw [List.foldl_cons] at h
    rcases ih h with h1 | ⟨kw2, hkw2, hrest⟩
    · rcases mem_foldl_addSpan h1 with h2 | ⟨m, hm, he⟩
      · exact Or.inl h2
      · exact Or.inr ⟨kw, List.mem_cons_self _ _, m, hm, he⟩
    · exact Or.inr ⟨kw2, List.mem_cons_of_mem _ hkw2, hrest⟩

theorem mem_extractCategory {kws : List (List Char)} {text s : List Char}
    (h : s ∈ extractCategory kws text) :
    ∃ kw ∈ kws, ∃ m ∈ (findall kw text).take 3,
      s = trimWs m ∧ 50 < s.length ∧ s.length < 500 := by
  rcases mem_extractCategory_fold h with h1 | h1
  · simp at h1
  · exact h1

theorem span_shape {kws : List (List Char)} {text s : List Char}
    (h : s ∈ extractCategory kws text) :
    ∃ seg : List Char, '.' ∉ seg ∧ s = (seg.dropWhile isWs) ++ ['.'] := by
  rcases mem_extractCategory h with ⟨kw, _, m, hm, hse, _, _⟩
  subst hse
  rcases findall_struct (List.mem_of_mem_take hm) with ⟨seg, hsegp, hmeq, _⟩
  have hlast : m.getLast? = some '.' := by
    rw [hmeq]
    exact List.getLast?_concat _
  refine ⟨seg, hsegp, ?_⟩
  rw [trimWs_of_getLast_period hlast, hmeq, dropWhile_append_singleton (by decide)]

theorem span_trim_fixed {kws : List (List Char)} {text s : List Char}
    (h : s ∈ extractCategory kws text) : trimWs s = s := by
  rcases mem_extractCategory h with ⟨kw, _, m, hm, hse, _, _⟩
  subst hse
  rcases findall_struct (List.mem_of_mem_take hm) with ⟨seg, hsegp, hmeq, _⟩
  have hlast : m.getLast? = some '.' := by
    rw [hmeq]
    exact List.getLast?_concat _
  exact trimWs_trimWs_of_last_period hlast

/-! ### The extraction folds preserve freedom from duplicates -/

theorem addSpan_nodup {acc : List (List Char)} {m : List Char} (h : acc.Nodup) :
    (addSpan acc m).Nodup := by
  simp only [addSpan]
  by_cases hlen : 50 < (trimWs m).length ∧ (trimWs m).length < 500
  · rw [if_pos hlen]
    by_cases hmem : trimWs m ∈ acc
    · rw [if_pos hmem]
      exact h
    · rw [if_neg hmem]
      refine List.nodup_append.mpr ⟨h, List.nodup_singleton _, ?_⟩
      intro a ha hb
      have hab : a = trimWs m := by simpa using hb
      subst hab
      exact hmem ha
  · rw [if_neg hlen]
    exact h

theorem foldl_addSpan_nodup {ms : List (List Char)} :
    ∀ {acc : List (List Char)}, acc.Nodup → (ms.foldl addSpan acc).Nodup := by
  induction ms with
  | nil => intro acc h; exact h
  | cons m ms ih =>
    intro acc h
    rw [List.foldl_cons]
    exact ih (addSpan_nodup h)

theorem extractCategory_fold_nodup {text : List Char} {kws : List (List Char)} :
    ∀ {acc : List (List Char)}, acc.Nodup →
      (kws.foldl (fun acc kw => processKeyword kw text acc) acc).Nodup := by
  induction kws with
  | nil => intro acc h; exact h
  | cons kw kws ih =>
    intro acc h
    rw [List.foldl_cons]
    exact ih (foldl_addSpan_nodup h)

theorem extractCategory_nodup (kws : List (List Char)) (text : List Char) :
    (extractCategory kws text).Nodup :=
  extractCategory_fold_nodup List.nodup_nil

/-! ### The per-keyword cap bounds the size of a category's list -/

theorem addSpan_length_le (acc : List (List Char)) (m : List Char) :
    (addSpan acc m).length ≤ acc.length + 1 := by
  simp only [addSpan]
  by_cases hlen : 50 < (trimWs m).length ∧ (trimWs m).length < 500
  · rw [if_pos hlen]
    by_cases hmem : trimWs m ∈ acc
    · rw [if_pos hmem]
      omega
    · rw [if_neg hmem]
      simp
  · rw [if_neg hlen]
    omega

theorem foldl_addSpan_length {ms : List (List Char)} :
    ∀ acc : List (List Char), (ms.foldl addSpan acc).length ≤ acc.length + ms.length := by
  induction ms with
  | nil => intro acc; simp
  | cons m ms ih =>
    intro acc
    rw [List.foldl_cons]
    have h1 := ih (addSpan acc m)
    have h2 := addSpan_length_le acc m
    simp only [List.length_cons]
    omega

theorem processKeyword_length_le (kw text : List Char) (acc : List (List Char)) :
    (processKeyword kw text acc).length ≤ acc.length + 3 := by
  unfold processKeyword
  have h1 := @foldl_addSpan_length ((findall kw text).take 3) acc
  have h2 := List.length_take_le 3 (findall kw text)
  omega

theorem extractCategory_fold_length {text : List Char} {kws : List (List Char)} :
    ∀ acc : List (List Char),
      (kws.foldl (fun acc kw => processKeyword kw text acc) acc).length ≤
        acc.length + 3 * kws.length := by
  induction kws with
  | nil => intro acc; simp
  | cons kw kws ih =>
    intro acc
    rw [List.foldl_cons]
    have h1 := ih (processKeyword kw text acc)
    have h2 := processKeyword_length_le kw text acc
    simp only [List.length_cons]
    omega

/-! ### Text after the last period never contributes a match -/

theorem splitOnPeriod_no_period {ys : List Char} (hy : '.' ∉ ys) :
    splitOnPeriod ys = [ys] := by
  induction ys with
  | nil => rfl
  | cons c t ih =>
    simp only [splitOnPeriod]
    have hc : ¬ c = '.' := fun he => hy (he ▸ List.mem_cons_self c t)
    rw [if_neg hc, ih (fun hm => hy (List.mem_cons_of_mem c hm))]

theorem splitOnPeriod_append_dropLast {ys : List Char} (hy : '.' ∉ ys) :
    ∀ xs : List Char, (splitOnPeriod (xs ++ ys)).dropLast = (splitOnPeriod xs).dropLast := by
  intro xs
  induction xs with
  | nil =>
    rw [List.nil_append, splitOnPeriod_no_period hy]
    rfl
  | cons c t ih =>
    rw [List.cons_append]
    by_cases hc : c = '.'
    · subst hc
      simp only [splitOnPeriod, if_pos rfl, if_true]
      rw [List.dropLast_cons_of_ne_nil (splitOnPeriod_ne_nil _),
          List.dropLast_cons_of_ne_nil (splitOnPeriod_ne_nil _), ih]
    · simp only [splitOnPeriod, if_neg hc]
      cases h1 : splitOnPeriod (t ++ ys) with
      | nil => exact absurd h1 (splitOnPeriod_ne_nil _)
      | cons a as =>
        cases h2 : splitOnPeriod t with
        | nil => exact absurd h2 (splitOnPeriod_ne_nil _)
        | cons b bs =>
          rw [h1, h2] at ih
          show ((c :: a) :: as).dropLast = ((c :: b) :: bs).dropLast
          cases as with
          | nil =>
            cases bs with
            | nil => rfl
            | cons b2 bs2 =>
              rw [List.dropLast_cons_of_ne_nil (by simp : (b2 :: bs2 : List (List Char)) ≠ [])]
                at ih
              exact absurd ih (by simp)
          | cons a2 as2 =>
            cases bs with
            | nil =>
              rw [List.dropLast_cons_of_ne_nil (by simp : (a2 :: as2 : List (List Char)) ≠ [])]
                at ih
              exact absurd ih.symm (by simp)
            | cons b2 bs2 =>
              rw [List.dropLast_cons_of_ne_nil (by simp : (a2 :: as2 : List (List Char)) ≠ []),
                  List.dropLast_cons_of_ne_nil (by simp : (b2 :: bs2 : List (List Char)) ≠ [])]
                at ih
              rw [List.dropLast_cons_of_ne_nil (by simp : (a2 :: as2 : List (List Char)) ≠ []),
                  List.dropLast_cons_of_ne_nil (by simp : (b2 :: bs2 : List (List Char)) ≠ [])]
              have hab : a = b := (List.cons.injEq _ _ _ _ ▸ ih).1
              have htl : (a2 :: as2).dropLast = (b2 :: bs2).dropLast :=
                (List.cons.injEq _ _ _ _ ▸ ih).2
              rw [hab, htl]

theorem findall_append_no_period {kw xs ys : List Char} (hy : '.' ∉ ys) :
    findall kw (xs ++ ys) = findall kw xs := by
  unfold findall
  rw [splitOnPeriod_append_dropLast hy xs]

theorem processKeyword_text_congr {kw t1 t2 : List Char} (h : findall kw t1 = findall kw t2)
    (acc : List (List Char)) : processKeyword kw t1 acc = processKeyword kw t2 acc := by
  unfold processKeyword
  rw [h]

theorem extractCategory_append_no_period (kws : List (List Char)) {xs ys : List Char}
    (hy : '.' ∉ ys) : extractCategory kws (xs ++ ys) = extractCategory kws xs := by
  unfold extractCategory
  have hfold : ∀ acc : List (List Char),
      kws.foldl (fun acc kw => processKeyword kw (xs ++ ys) acc) acc =
        kws.foldl (fun acc kw => processKeyword kw xs acc) acc := by
    induction kws with
    | nil => intro acc; rfl
    | cons kw kws ih =>
      intro acc
      rw [List.foldl_cons, List.foldl_cons,
        processKeyword_text_congr (findall_append_no_period hy) acc]
      exact ih _
  exact hfold []

theorem extractCategory_nil_text (kws : List (List Char)) :
    extractCategory kws [] = [] := by
  unfold extractCategory
  have hfold : ∀ acc : List (List Char),
      kws.foldl (fun acc kw => processKeyword kw [] acc) acc = acc := by
    induction kws with
    | nil => intro acc; rfl
    | cons kw kws ih =>
      intro acc
      rw [List.foldl_cons]
      exact ih _
  exact hfold []

/-! ### The filings loop returns normally when every matching index is in range -/

theorem filingsLoop_isSome (cik ft : String) (count : Nat) (accs dates docs : List String) :
    ∀ (forms : List String) (i : Nat) (results : List Filing),
      (∀ j, forms.get? j = some ft →
        i + j < accs.length ∧ i + j < dates.length ∧ i + j < docs.length) →
      (filingsLoop cik ft count accs dates docs forms i results).isSome = true := by
  intro forms
  induction forms with
  | nil => intro i results _; rfl
  | cons form rest ih =>
    intro i results h
    rw [filingsLoop]
    by_cases hcond : form = ft ∧ results.length < count
    · rw [if_pos hcond]
      have h0 : i + 0 < accs.length ∧ i + 0 < dates.length ∧ i + 0 < docs.length := by
        apply h 0
        rw [hcond.1]
        rfl
      obtain ⟨ha, hd, hdoc⟩ := h0
      rw [List.get?_eq_get (by omega : i < accs.length),
          List.get?_eq_get (by omega : i < dates.length),
          List.get?_eq_get (by omega : i < docs.length)]
      apply ih
      intro j hj
      have := h (j + 1) (by simpa using hj)
      omega
    · rw [if_neg hcond]
      apply ih
      intro j hj
      have := h (j + 1) (by simpa using hj)
      omega

/-! ### Reduction helpers for the driver's Except monad -/

theorem except_bind_ok {α β : Type} (a : α) (k : α → Except Unit β) :
    (Except.ok a >>= k) = k a := rfl

theorem except_bind_err {α β : Type} (k : α → Except Unit β) :
    ((Except.error () : Except Unit α) >>= k) = Except.error () := rfl

/-! ### Claim theorems -/

/-- C1: every span the Span Extractor stores in a category's list
contains one of that category's keywords as a case-insensitive
whole-word match (word-boundary semantics).  Instantiating `kws` with a
single keyword specializes this to the per-keyword form: every span
returned for `k` contains `k`. -/
theorem extractCategory_spans_contain_keyword (kws : List (List Char)) (text s : List Char)
    (hs : s ∈ extractCategory kws text) :
    ∃ kw ∈ kws, containsWholeWord kw s = true := by
  rcases mem_extractCategory hs with ⟨kw, hkw, m, hm, hse, _, _⟩
  subst hse
  rcases findall_struct (List.mem_of_mem_take hm) with ⟨seg, hsegp, hmeq, hcontains⟩
  have hlast : m.getLast? = some '.' := by
    rw [hmeq]
    exact List.getLast?_concat _
  exact ⟨kw, hkw, containsWholeWord_trimWs hlast hcontains⟩

/-- Witness for C1 at a concrete text and keyword. -/
theorem extractCategory_spans_contain_keyword_witness :
    sampleSpan ∈ extractCategory [sampleKw] sampleText ∧
      ∃ kw ∈ [sampleKw], containsWholeWord kw sampleSpan = true :=
  ⟨by decide, extractCategory_spans_contain_keyword [sampleKw] sampleText sampleSpan (by decide)⟩

/-- C4: every span the extractor returns has, after trimming surrounding
whitespace, a length strictly between 50 and 500.  Returned spans are
already stored trimmed, so trimming them again is the identity and the
stored length itself satisfies the bounds. -/
theorem extractCategory_span_length_bounds (kws : List (List Char)) (text s : List Char)
    (hs : s ∈ extractCategory kws text) :
    50 < (trimWs s).length ∧ (trimWs s).length < 500 := by
  have hfix : trimWs s = s := span_trim_fixed hs
  rcases mem_extractCategory hs with ⟨kw, _, m, hm, hse, h50, h500⟩
  rw [hfix]
  exact ⟨h50, h500⟩

/-- Witness for C4 at a concrete text and keyword. -/
theorem extractCategory_span_length_bounds_witness :
    sampleSpan ∈ extractCategory [sampleKw] sampleText ∧
      50 < (trimWs sampleSpan).length ∧ (trimWs sampleSpan).length < 500 :=
  ⟨by decide, extractCategory_span_length_bounds [sampleKw] sampleText sampleSpan (by decide)⟩

/-- C10: every stored span is a run of non-period characters followed by
exactly one final period: it is `w ++ ['.']` for some `w` free of
periods. -/
theorem extractCategory_span_one_period (kws : List (List Char)) (text s : List Char)
    (hs : s ∈ extractCategory kws text) :
    ∃ w : List Char, s = w ++ ['.'] ∧ '.' ∉ w := by
  rcases span_shape hs with ⟨seg, hsegp, hshape⟩
  refine ⟨seg.dropWhile isWs, hshape, ?_⟩
  intro hmem
  exact hsegp ((List.dropWhile_sublist isWs).subset hmem)

/-- Witness for C10 at a concrete text and keyword. -/
theorem extractCategory_span_one_period_witness :
    sampleSpan ∈ extractCategory [sampleKw] sampleText ∧
      ∃ w : List Char, sampleSpan = w ++ ['.'] ∧ '.' ∉ w :=
  ⟨by decide, extractCategory_span_one_period [sampleKw] sampleText sampleSpan (by decide)⟩

/-- C5: in a single run no category's list contains a duplicate string,
and the categories are built independently of each other (the same text
stored in two categories stays in both: each category's list is a
function of that category's keywords alone). -/
theorem extractAll_nodup_and_independent (catalog : List (String × List String))
    (text : List Char) :
    (∀ p ∈ extractAll catalog text, p.2.Nodup) ∧
      extractAll catalog text =
        catalog.map (fun q => (q.1, extractCategory (q.2.map String.toList) text)) := by
  constructor
  · intro p hp
    rcases List.mem_map.mp hp with ⟨q, _, hq⟩
    rw [← hq]
    exact extractCategory_nodup _ _
  · rfl

/-- Witness for C5 at a concrete catalog and text. -/
theorem extractAll_nodup_and_independent_witness :
    (("Environmental", [sampleSpan]) : String × List (List Char)) ∈
        extractAll smallCatalog sampleText ∧
      (("Environmental", [sampleSpan]) : String × List (List Char)).2.Nodup :=
  ⟨by decide,
    (extractAll_nodup_and_independent smallCatalog sampleText).1 _ (by decide)⟩

/-- C8: the per-keyword cap bounds each category's list by three spans
per keyword, and every stored span originates from one of the first
three sentence matches of some keyword of the category (so a keyword's
fourth and later matches are never stored). -/
theorem extractCategory_per_keyword_cap (kws : List (List Char)) (text : List Char) :
    (extractCategory kws text).length ≤ 3 * kws.length ∧
      ∀ s ∈ extractCategory kws text,
        ∃ kw ∈ kws, ∃ m ∈ (findall kw text).take 3, s = trimWs m := by
  constructor
  · have h := @extractCategory_fold_length text kws []
    simpa using h
  · intro s hs
    rcases mem_extractCategory hs with ⟨kw, hkw, m, hm, hse, _, _⟩
    exact ⟨kw, hkw, m, hm, hse⟩

/-- Witness for C8 at a concrete text and keyword. -/
theorem extractCategory_per_keyword_cap_witness :
    sampleSpan ∈ extractCategory [sampleKw] sampleText ∧
      ∃ kw ∈ [sampleKw], ∃ m ∈ (findall kw sampleText).take 3, sampleSpan = trimWs m :=
  ⟨by decide,
    (extractCategory_per_keyword_cap [sampleKw] sampleText).2 sampleSpan (by decide)⟩

/-- C7: a keyword occurrence with no period anywhere after it produces
no span.  Appending any period-free tail to a text leaves the extraction
unchanged, and a wholly period-free text produces no spans at all. -/
theorem extractCategory_ignores_trailing_text (kws : List (List Char)) (xs ys : List Char)
    (hy : '.' ∉ ys) :
    extractCategory kws (xs ++ ys) = extractCategory kws xs ∧
      extractCategory kws ys = [] := by
  constructor
  · exact extractCategory_append_no_period kws hy
  · have h := @extractCategory_append_no_period kws [] ys hy
    rw [List.nil_append] at h
    rw [h, extractCategory_nil_text]

/-- Witness for C7 at a concrete text and tail. -/
theorem extractCategory_ignores_trailing_text_witness :
    '.' ∉ " climate change but no period anywhere after".toList ∧
      (extractCategory [sampleKw]
          (sampleText ++ " climate change but no period anywhere after".toList) =
        extractCategory [sampleKw] sampleText ∧
      extractCategory [sampleKw] " climate change but no period anywhere after".toList = []) :=
  ⟨by decide,
    extractCategory_ignores_trailing_text [sampleKw] sampleText
      " climate change but no period anywhere after".toList (by decide)⟩

/-- C9: the Span Extractor is a deterministic function of its input
text: equal inputs (two runs on the same text) give identical output,
order included. -/
theorem extractAll_deterministic (catalog : List (String × List String)) (t1 t2 : List Char)
    (h : t1 = t2) : extractAll catalog t1 = extractAll catalog t2 := by
  rw [h]

/-- Witness for C9 at a concrete text. -/
theorem extractAll_deterministic_witness :
    sampleText = sampleText ∧
      extractAll ESG_KEYWORDS sampleText = extractAll ESG_KEYWORDS sampleText :=
  ⟨rfl, extractAll_deterministic ESG_KEYWORDS sampleText sampleText rfl⟩

/-- C6: the Metrics Aggregator is a pure function of a category's span
list: on the empty list it yields count 0, average exactly 0 and the
sentinel sample; on a non-empty list it yields the list's length, the
exact arithmetic mean of the span lengths and the first span truncated
to 200 characters followed by the ellipsis marker. -/
theorem analyze_category_correct (items : List (List Char)) :
    ((analyze_category ([] : List (List Char))).disclosure_count = 0 ∧
      (analyze_category ([] : List (List Char))).avg_length = 0 ∧
      (analyze_category ([] : List (List Char))).sample = "No disclosure found".toList) ∧
    (items ≠ [] →
      (analyze_category items).disclosure_count = items.length ∧
      (analyze_category items).avg_length =
        ((items.map List.length).sum : ℚ) / (items.length : ℚ) ∧
      (analyze_category items).sample = items.headI.take 200 ++ "...".toList) := by
  constructor
  · exact ⟨rfl, rfl, rfl⟩
  · intro hne
    refine ⟨rfl, ?_, ?_⟩
    · simp only [analyze_category, if_neg hne]
    · cases items with
      | nil => exact absurd rfl hne
      | cons s rest => rfl

/-- Witness for C6 at a concrete non-empty list. -/
theorem analyze_category_correct_witness :
    ([sampleSpan] : List (List Char)) ≠ [] ∧
      ((analyze_category [sampleSpan]).disclosure_count = [sampleSpan].length ∧
      (analyze_category [sampleSpan]).avg_length =
        (([sampleSpan].map List.length).sum : ℚ) / (([sampleSpan].length : Nat) : ℚ) ∧
      (analyze_category [sampleSpan]).sample = [sampleSpan].headI.take 200 ++ "...".toList) :=
  ⟨by decide, (analyze_category_correct [sampleSpan]).2 (by decide)⟩

/-- Counterexample to C3: on metadata whose form sequence holds a
matching 10-K entry while the other parallel sequences are empty,
`get_company_filings` does not return a (possibly empty) list: the
lookup `accessions[0]` raises `IndexError`, modelled by `none`. -/
theorem get_company_filings_mismatch_raises :
    get_company_filings "0000320193" "10-K" 5 mismatchedRecent = none := by
  decide

/-- C3 amended: `get_company_filings` returns normally with a (possibly
empty) list for every metadata shape in which each index holding a
matching form type is within bounds of the accession, date and document
sequences — in particular when the parallel sequences have equal length
or are missing (a missing key reads as the empty sequence).  A matching
form type at an index out of range of another sequence instead raises
`IndexError`. -/
theorem get_company_filings_total (cik ft : String) (count : Nat) (recent : RecentFilings)
    (h : ∀ j, j < (recent.form.getD []).length → (recent.form.getD []).get? j = some ft →
        j < (recent.accessionNumber.getD []).length ∧
        j < (recent.filingDate.getD []).length ∧
        j < (recent.primaryDocument.getD []).length) :
    (get_company_filings cik ft count recent).isSome = true := by
  unfold get_company_filings
  apply filingsLoop_isSome
  intro j hj
  have hb : j < (recent.form.getD []).length := by
    rcases List.get?_eq_some.mp hj with ⟨hlt, _⟩
    exact hlt
  have := h j hb hj
  omega

/-- Witness for the amended C3 at aligned concrete metadata. -/
theorem get_company_filings_total_witness :
    (∀ j, j < (goodRecent.form.getD []).length →
        (goodRecent.form.getD []).get? j = some "10-K" →
        j < (goodRecent.accessionNumber.getD []).length ∧
        j < (goodRecent.filingDate.getD []).length ∧
        j < (goodRecent.primaryDocument.getD []).length) ∧
      (get_company_filings "0000320193" "10-K" 5 goodRecent).isSome = true :=
  ⟨by decide, get_company_filings_total "0000320193" "10-K" 5 goodRecent (by decide)⟩

/-- Counterexample to C2: with a fetch oracle that raises a transport
exception for the first entity, the driver does not skip the entity and
continue — the whole run aborts (so the second entity is never processed
and no artifact is written). -/
theorem processEntities_exn_aborts :
    processEntities [("Apple", "0000320193"), ("Tesla", "0001318605")] exnListings exnFetch =
      Except.error () := rfl

/-- C2 amended: a transport-level exception raised while fetching an
entity's document propagates out of the per-entity loop and aborts the
entire run — no later entity is processed and the artifact mapping is
not produced.  Only a non-success HTTP status (`.ok none`) or an empty
filing list causes a per-entity skip. -/
theorem processEntities_error_propagates
    (comp : String × String) (rest : List (String × String))
    (listF : String → Except Unit (List Filing))
    (fetchC : String → Filing → Except Unit (Option (List Char)))
    (f : Filing) (fs : List Filing)
    (hl : listF comp.2 = Except.ok (f :: fs))
    (hf : fetchC comp.2 f = Except.error ()) :
    processEntities (comp :: rest) listF fetchC = Except.error () := by
  unfold processEntities
  rw [List.foldlM_cons]
  show (listF comp.2 >>= _) >>= _ = Except.error ()
  rw [hl, except_bind_ok]
  show (fetchC comp.2 f >>= _) >>= _ = Except.error ()
  rw [hf, except_bind_err, except_bind_err]

/-- Witness for the amended C2 at concrete oracles. -/
theorem processEntities_error_propagates_witness :
    exnListings "0000320193" = Except.ok [filingA] ∧
      exnFetch "0000320193" filingA = Except.error () ∧
      processEntities [("Apple", "0000320193")] exnListings exnFetch = Except.error () :=
  ⟨rfl, rfl,
    processEntities_error_propagates ("Apple", "0000320193") [] exnListings exnFetch
      filingA [] rfl rfl⟩
